import Mathlib

/-!
Verification of the Fuzzy C-Means clusterer in `labs/w1/algorithms/fcm.py`.

The numeric state of a `FuzzyCMeans` instance is embedded over the real
numbers: the data matrix `X` is `Fin n → Fin D → ℝ` (n points, D features),
the membership matrix `u` is `Fin K → Fin n → ℝ` (K clusters), and the
centroid matrix `centroids` is `Fin K → Fin D → ℝ`.  Each private method of
the class becomes a pure function on these matrices; methods that mutate
`self` are embedded as functions returning the new value of the mutated
field, and methods that only read `self` are embedded as functions that
also return the (unchanged) state.  Division follows the usual Lean
convention `x / 0 = 0`; wherever the Python code can actually divide by
zero this is made explicit in the corresponding theorems.
-/

open scoped BigOperators

namespace FCM

/-- Euclidean norm of a vector, `np.linalg.norm(y)` for a 1-D array `y`. -/
noncomputable def euclNorm {D : ℕ} (y : Fin D → ℝ) : ℝ :=
  Real.sqrt (∑ d, y d ^ 2)

/-- Distance `np.linalg.norm(x - v)` between a point and a centroid. -/
noncomputable def fcmDist {D : ℕ} (x v : Fin D → ℝ) : ℝ :=
  euclNorm (fun d => x d - v d)

/-- Entrywise power `self.u ** self.m` (`u_pow_m` in `_update_v`). -/
noncomputable def uPowM {K n : ℕ} (u : Fin K → Fin n → ℝ) (m : ℕ) :
    Fin K → Fin n → ℝ :=
  fun k i => u k i ^ m

/-- Matrix product `A @ B` (`u_pow_m @ self.X` in `_update_v`). -/
noncomputable def matmul {K n D : ℕ} (A : Fin K → Fin n → ℝ)
    (B : Fin n → Fin D → ℝ) : Fin K → Fin D → ℝ :=
  fun k d => ∑ i, A k i * B i d

/-- Row sums `A.sum(axis=1)` (`d_term` in `_update_v`). -/
noncomputable def rowSum {K n : ℕ} (A : Fin K → Fin n → ℝ) : Fin K → ℝ :=
  fun k => ∑ i, A k i

/-- `FuzzyCMeans._update_v`: `self.centroids = (u_pow_m @ self.X) / u_pow_m.sum(axis=1, keepdims=True)`. -/
noncomputable def updateV {K n D : ℕ} (u : Fin K → Fin n → ℝ)
    (X : Fin n → Fin D → ℝ) (m : ℕ) : Fin K → Fin D → ℝ :=
  fun k d => matmul (uPowM u m) X k d / rowSum (uPowM u m) k

/-- `FuzzyCMeans._loss`: the double loop accumulating
`(self.u[k, i] ** self.m) * np.linalg.norm(self.X[i] - self.centroids[k]) ** 2`. -/
noncomputable def loss {K n D : ℕ} (X : Fin n → Fin D → ℝ)
    (u : Fin K → Fin n → ℝ) (v : Fin K → Fin D → ℝ) (m : ℕ) : ℝ :=
  ∑ i, ∑ k, u k i ^ m * euclNorm (fun d => X i d - v k d) ^ 2

/-- Exponent `2 / (self.m - 1)` appearing in `_update_u` (Python float division). -/
noncomputable def fcmExponent (m : ℕ) : ℝ :=
  2 / ((m : ℝ) - 1)

/-- Inner loops of `FuzzyCMeans._update_u`: for each cluster `k` and point `i`,
`u_ki = (sum over j of (num / den) ** (2 / (m - 1))) ** -1` where
`num = norm(X[i] - centroids[k])` and `den = norm(X[i] - centroids[j])`. -/
noncomputable def updateURaw {K n D : ℕ} (X : Fin n → Fin D → ℝ)
    (v : Fin K → Fin D → ℝ) (m : ℕ) : Fin K → Fin n → ℝ :=
  fun k i => (∑ j, (fcmDist (X i) (v k) / fcmDist (X i) (v j)) ^ fcmExponent m)⁻¹

/-- Column renormalisation `u / u.sum(axis=0)[None, :]` used by both
`_init_u` and the last line of `_update_u`. -/
noncomputable def colNormalize {K n : ℕ} (u : Fin K → Fin n → ℝ) :
    Fin K → Fin n → ℝ :=
  fun k i => u k i / ∑ l, u l i

/-- `FuzzyCMeans._init_u`: the random draw `np.random.random(size=(K, n))` is an
explicit argument `r`; the method stores its column-normalised form. -/
noncomputable def initU {K n : ℕ} (r : Fin K → Fin n → ℝ) : Fin K → Fin n → ℝ :=
  colNormalize r

/-- `FuzzyCMeans._update_u`: the raw membership loop followed by
`self.u = self.u / self.u.sum(axis=0)[None, :]`. -/
noncomputable def updateU {K n D : ℕ} (X : Fin n → Fin D → ℝ)
    (v : Fin K → Fin D → ℝ) (m : ℕ) : Fin K → Fin n → ℝ :=
  colNormalize (updateURaw X v m)

/-- `np.linalg.norm(M, ord=1)` for a 2-D array: the maximum over columns of the
column-wise sum of absolute values (the induced L1 matrix norm). -/
noncomputable def matNorm1 {K D : ℕ} (M : Fin K → Fin D → ℝ) : ℝ :=
  Finset.univ.fold max 0 (fun d => ∑ k, |M k d|)

/-- `FuzzyCMeans._check_convergence`: true when `self.it >= self.max_it`; else,
when a previous centroid snapshot exists, true exactly when
`np.linalg.norm(self.centroids - previous_centroids, ord=1) < self.epsilon`;
else false. -/
def checkConvergence {K D : ℕ} (it maxIt : ℕ) (cur : Fin K → Fin D → ℝ)
    (prev : Option (Fin K → Fin D → ℝ)) (eps : ℝ) : Prop :=
  if maxIt ≤ it then True
  else
    match prev with
    | some p => matNorm1 (fun k d => cur k d - p k d) < eps
    | none => False

/-- Configuration stored by `FuzzyCMeans.__init__`. -/
structure FCMParams where
  m : ℕ
  epsilon : ℝ

/-- `FuzzyCMeans.__init__`: stores `m` and `epsilon` unconditionally; the body
performs no validation of `m` whatsoever. -/
def fcmInit (m : ℕ) (epsilon : ℝ) : FCMParams :=
  ⟨m, epsilon⟩

/-- Numeric state of a fitted `FuzzyCMeans` instance. -/
structure FCMState (K n D : ℕ) where
  X : Fin n → Fin D → ℝ
  u : Fin K → Fin n → ℝ
  centroids : Fin K → Fin D → ℝ
  m : ℕ
  epsilon : ℝ
  it : ℕ
  max_it : ℕ

/-- `FuzzyCMeans._loss` as a method: it reads `self.X`, `self.u`,
`self.centroids` and `self.m` and assigns no attribute, so its embedding
returns the loss value together with the unchanged state. -/
noncomputable def lossMethod {K n D : ℕ} (s : FCMState K n D) :
    ℝ × FCMState K n D :=
  (loss s.X s.u s.centroids s.m, s)

/-- `FuzzyCMeans.predict`: `return self.u, self.centroids`.  The argument
matrix is ignored and no attribute is assigned. -/
def predictMethod {K n D nA DA : ℕ} (s : FCMState K n D)
    (_Xarg : Fin nA → Fin DA → ℝ) :
    ((Fin K → Fin n → ℝ) × (Fin K → Fin D → ℝ)) × FCMState K n D :=
  ((s.u, s.centroids), s)

/-! Concrete inputs used to evaluate the definitions in witnesses and
counterexamples. -/

/-- A uniform positive random draw for `_init_u`, two clusters, one point. -/
noncomputable def rInitW : Fin 2 → Fin 1 → ℝ := fun _ _ => 1

/-- One data point at the origin (for the `_update_u` witness). -/
noncomputable def xUW : Fin 1 → Fin 1 → ℝ := ![![0]]

/-- Two centroids away from the data point of `xUW`. -/
noncomputable def vUW : Fin 2 → Fin 1 → ℝ := ![![1], ![3]]

/-- One data point at the origin, coinciding with a centroid of `vDeg`. -/
noncomputable def xDeg : Fin 1 → Fin 1 → ℝ := ![![0]]

/-- Centroid 0 coincides with the data point of `xDeg`; centroid 1 does not. -/
noncomputable def vDeg : Fin 2 → Fin 1 → ℝ := ![![0], ![1]]

/-- An all-zero membership row: its weight sum in `_update_v` is zero. -/
noncomputable def uZero : Fin 1 → Fin 1 → ℝ := fun _ _ => 0

/-- Data point for the degenerate `_update_v` input. -/
noncomputable def xC6 : Fin 1 → Fin 1 → ℝ := ![![5]]

/-- Previous centroid that a guarded `_update_v` would have to retain. -/
noncomputable def vPrev : Fin 1 → Fin 1 → ℝ := ![![3]]

/-- Two data points on a line (for the loss-monotonicity witness). -/
noncomputable def xC4 : Fin 2 → Fin 1 → ℝ := ![![0], ![2]]

/-- Single-cluster membership matrix with both columns summing to 1. -/
noncomputable def uC4 : Fin 1 → Fin 2 → ℝ := ![![1, 1]]

/-- Old centroid before the V-update of the loss-monotonicity witness. -/
noncomputable def vC4 : Fin 1 → Fin 1 → ℝ := ![![5]]

/-- State whose iteration budget is exhausted while its centroids still move
far more than `epsilon`. -/
noncomputable def sBudget : FCMState 1 1 1 :=
  ⟨![![0]], ![![1]], ![![0]], 2, 1, 5, 5⟩

/-- State that converged by the tolerance criterion, with the same membership
matrix and centroids as `sBudget`. -/
noncomputable def sTol : FCMState 1 1 1 :=
  ⟨![![0]], ![![1]], ![![0]], 2, 1, 1, 5⟩

/-- Previous centroid snapshot far away from the centroids of `sBudget`. -/
noncomputable def prevFar : Fin 1 → Fin 1 → ℝ := ![![100]]

/-! Helper lemmas shared by the theorems below. -/

lemma euclNorm_nonneg {D : ℕ} (y : Fin D → ℝ) : 0 ≤ euclNorm y :=
  Real.sqrt_nonneg _

lemma euclNorm_sq {D : ℕ} (y : Fin D → ℝ) : euclNorm y ^ 2 = ∑ d, y d ^ 2 :=
  Real.sq_sqrt (Finset.sum_nonneg fun _ _ => sq_nonneg _)

lemma fcmDist_nonneg {D : ℕ} (x v : Fin D → ℝ) : 0 ≤ fcmDist x v :=
  Real.sqrt_nonneg _

lemma colNormalize_colsum {K n : ℕ} (u : Fin K → Fin n → ℝ) (i : Fin n)
    (h : ∑ k, u k i ≠ 0) : ∑ k, colNormalize u k i = 1 := by
  unfold colNormalize
  rw [← Finset.sum_div]
  exact div_self h

lemma fcmExponent_pos {m : ℕ} (hm : 2 ≤ m) : 0 < fcmExponent m := by
  have h2 : (2 : ℝ) ≤ (m : ℝ) := by exact_mod_cast hm
  exact div_pos (by norm_num) (by linarith)

lemma fcmExponent_mul {m : ℕ} (hm : 2 ≤ m) :
    fcmExponent m * ((m : ℝ) - 1) = 2 := by
  have h2 : (2 : ℝ) ≤ (m : ℝ) := by exact_mod_cast hm
  have hne : (m : ℝ) - 1 ≠ 0 := by linarith
  unfold fcmExponent
  field_simp

/-- The inner loop value of `_update_u`: with all distances to the current
centroids nonzero, `u_ki` simplifies to the normalised inverse-power form. -/
lemma updateURaw_eq {K n D : ℕ} (X : Fin n → Fin D → ℝ)
    (v : Fin K → Fin D → ℝ) (m : ℕ) (hd : ∀ i j, fcmDist (X i) (v j) ≠ 0)
    (k : Fin K) (i : Fin n) :
    updateURaw X v m k i
      = fcmDist (X i) (v k) ^ (-fcmExponent m)
        / ∑ j, fcmDist (X i) (v j) ^ (-fcmExponent m) := by
  have dpos : ∀ j, 0 < fcmDist (X i) (v j) := fun j =>
    lt_of_le_of_ne (fcmDist_nonneg _ _) (Ne.symm (hd i j))
  unfold updateURaw
  have hterm : ∀ j : Fin K,
      (fcmDist (X i) (v k) / fcmDist (X i) (v j)) ^ fcmExponent m
        = fcmDist (X i) (v k) ^ fcmExponent m
          * fcmDist (X i) (v j) ^ (-fcmExponent m) := by
    intro j
    rw [Real.div_rpow (dpos k).le (dpos j).le, div_eq_mul_inv,
      ← Real.rpow_neg (dpos j).le]
  rw [Finset.sum_congr rfl fun j _ => hterm j, ← Finset.mul_sum, mul_inv,
    ← Real.rpow_neg (dpos k).le, div_eq_mul_inv]

lemma updateU_eq {K n D : ℕ} (X : Fin n → Fin D → ℝ)
    (v : Fin K → Fin D → ℝ) (m : ℕ) (hK : 0 < K)
    (hd : ∀ i j, fcmDist (X i) (v j) ≠ 0) (k : Fin K) (i : Fin n) :
    updateU X v m k i
      = fcmDist (X i) (v k) ^ (-fcmExponent m)
        / ∑ j, fcmDist (X i) (v j) ^ (-fcmExponent m) := by
  have hne : Nonempty (Fin K) := ⟨⟨0, hK⟩⟩
  have dpos : ∀ j, 0 < fcmDist (X i) (v j) := fun j =>
    lt_of_le_of_ne (fcmDist_nonneg _ _) (Ne.symm (hd i j))
  have hS : 0 < ∑ j, fcmDist (X i) (v j) ^ (-fcmExponent m) :=
    Finset.sum_pos (fun j _ => Real.rpow_pos_of_pos (dpos j) _)
      Finset.univ_nonempty
  unfold updateU colNormalize
  rw [Finset.sum_congr rfl fun l _ => updateURaw_eq X v m hd l i,
    updateURaw_eq X v m hd k i, ← Finset.sum_div, div_self hS.ne', div_one]

lemma updateU_colsum {K n D : ℕ} (X : Fin n → Fin D → ℝ)
    (v : Fin K → Fin D → ℝ) (m : ℕ) (hK : 0 < K)
    (hd : ∀ i j, fcmDist (X i) (v j) ≠ 0) (i : Fin n) :
    ∑ k, updateU X v m k i = 1 := by
  have hne : Nonempty (Fin K) := ⟨⟨0, hK⟩⟩
  have dpos : ∀ j, 0 < fcmDist (X i) (v j) := fun j =>
    lt_of_le_of_ne (fcmDist_nonneg _ _) (Ne.symm (hd i j))
  have hS : 0 < ∑ j, fcmDist (X i) (v j) ^ (-fcmExponent m) :=
    Finset.sum_pos (fun j _ => Real.rpow_pos_of_pos (dpos j) _)
      Finset.univ_nonempty
  rw [Finset.sum_congr rfl fun k _ => updateU_eq X v m hK hd k i,
    ← Finset.sum_div, div_self hS.ne']

/-- Tangent-line bound for the convex function `c ^ m` at a positive point. -/
lemma pow_tangent_line {m : ℕ} (hm : 1 ≤ m) {a c : ℝ} (ha : 0 < a)
    (hc : 0 ≤ c) : a ^ m + (m : ℝ) * a ^ (m - 1) * (c - a) ≤ c ^ m := by
  obtain ⟨l, rfl⟩ : ∃ l, m = l + 1 :=
    ⟨m - 1, (Nat.succ_pred_eq_of_pos (by omega)).symm⟩
  have hx : (-2 : ℝ) ≤ c / a - 1 := by
    have h0 : 0 ≤ c / a := div_nonneg hc ha.le
    linarith
  have hb := one_add_mul_le_pow hx (l + 1)
  rw [show (1 : ℝ) + (c / a - 1) = c / a by ring] at hb
  have hmul := mul_le_mul_of_nonneg_left hb (pow_nonneg ha.le (l + 1))
  have hr : a ^ (l + 1) * (c / a) ^ (l + 1) = c ^ (l + 1) := by
    rw [div_pow]
    field_simp
  have hl : a ^ (l + 1) * (1 + ((l + 1 : ℕ) : ℝ) * (c / a - 1))
      = a ^ (l + 1) + ((l + 1 : ℕ) : ℝ) * a ^ (l + 1 - 1) * (c - a) := by
    rw [show l + 1 - 1 = l from rfl, pow_succ]
    field_simp
    ring
  calc a ^ (l + 1) + ((l + 1 : ℕ) : ℝ) * a ^ (l + 1 - 1) * (c - a)
      = a ^ (l + 1) * (1 + ((l + 1 : ℕ) : ℝ) * (c / a - 1)) := hl.symm
    _ ≤ a ^ (l + 1) * (c / a) ^ (l + 1) := hmul
    _ = c ^ (l + 1) := hr

/-- The weighted mean minimises the weighted sum of squared deviations. -/
lemma weighted_mean_min {n : ℕ} (w x : Fin n → ℝ) (c : ℝ)
    (hw : ∀ i, 0 ≤ w i) (hW : ∑ i, w i ≠ 0) :
    ∑ i, w i * (x i - (∑ j, w j * x j) / ∑ j, w j) ^ 2
      ≤ ∑ i, w i * (x i - c) ^ 2 := by
  set W := ∑ j, w j with hWdef
  set μ := (∑ j, w j * x j) / W with hμdef
  have hWpos : 0 < W :=
    lt_of_le_of_ne (Finset.sum_nonneg fun i _ => hw i) (Ne.symm hW)
  have hsum : ∑ j, w j * x j = W * μ := by
    rw [hμdef]
    field_simp
  have hcross : ∑ i, w i * (x i - μ) = 0 := by
    simp only [mul_sub]
    rw [Finset.sum_sub_distrib, ← Finset.sum_mul, ← hWdef, hsum]
    ring
  have key : ∑ i, w i * (x i - c) ^ 2
      = (∑ i, w i * (x i - μ) ^ 2) + W * (μ - c) ^ 2 := by
    have expand : ∀ i ∈ (Finset.univ : Finset (Fin n)), w i * (x i - c) ^ 2
        = w i * (x i - μ) ^ 2 + w i * (μ - c) ^ 2
          + 2 * (μ - c) * (w i * (x i - μ)) := fun i _ => by ring
    rw [Finset.sum_congr rfl expand, Finset.sum_add_distrib,
      Finset.sum_add_distrib, ← Finset.sum_mul, ← Finset.mul_sum, hcross,
      ← hWdef]
    ring
  rw [key]
  have hnn : 0 ≤ W * (μ - c) ^ 2 := mul_nonneg hWpos.le (sq_nonneg _)
  linarith

/-- The loss with the sums reordered to cluster-coordinate-point order. -/
lemma loss_rearrange {K n D : ℕ} (X : Fin n → Fin D → ℝ)
    (u : Fin K → Fin n → ℝ) (v : Fin K → Fin D → ℝ) (m : ℕ) :
    loss X u v m = ∑ k, ∑ d, ∑ i, u k i ^ m * (X i d - v k d) ^ 2 := by
  unfold loss
  calc ∑ i, ∑ k, u k i ^ m * euclNorm (fun d => X i d - v k d) ^ 2
      = ∑ i, ∑ k, ∑ d, u k i ^ m * (X i d - v k d) ^ 2 :=
        Finset.sum_congr rfl fun i _ => Finset.sum_congr rfl fun k _ => by
          rw [euclNorm_sq, Finset.mul_sum]
    _ = ∑ k, ∑ i, ∑ d, u k i ^ m * (X i d - v k d) ^ 2 := Finset.sum_comm
    _ = ∑ k, ∑ d, ∑ i, u k i ^ m * (X i d - v k d) ^ 2 :=
        Finset.sum_congr rfl fun k _ => Finset.sum_comm

/-- The V-update phase of `_compute_centroids` does not increase the loss. -/
lemma loss_updateV_le {K n D : ℕ} (u : Fin K → Fin n → ℝ)
    (X : Fin n → Fin D → ℝ) (v : Fin K → Fin D → ℝ) (m : ℕ)
    (hu0 : ∀ k i, 0 ≤ u k i) (hW : ∀ k, rowSum (uPowM u m) k ≠ 0) :
    loss X u (updateV u X m) m ≤ loss X u v m := by
  rw [loss_rearrange, loss_rearrange]
  refine Finset.sum_le_sum fun k _ => Finset.sum_le_sum fun d _ => ?_
  have hw : ∀ i, 0 ≤ u k i ^ m := fun i => pow_nonneg (hu0 k i) m
  have hWk : ∑ i, u k i ^ m ≠ 0 := hW k
  have h := weighted_mean_min (fun i => u k i ^ m) (fun i => X i d) (v k d)
    hw hWk
  simp only [updateV, matmul, rowSum, uPowM]
  exact h

/-- Any membership column in the probability simplex gives a per-point cost at
least that of the column produced by the `_update_u` formula. -/
lemma membership_update_optimal {K : ℕ} (hK : 0 < K) {m : ℕ} (hm : 2 ≤ m)
    (d c : Fin K → ℝ) (hd : ∀ k, 0 < d k) (hc0 : ∀ k, 0 ≤ c k)
    (hc1 : ∑ k, c k = 1) :
    ∑ k, (d k ^ (-fcmExponent m) / ∑ j, d j ^ (-fcmExponent m)) ^ m * d k ^ 2
      ≤ ∑ k, c k ^ m * d k ^ 2 := by
  have hne : Nonempty (Fin K) := ⟨⟨0, hK⟩⟩
  set p := fcmExponent m with hpdef
  set S := ∑ j, d j ^ (-p) with hSdef
  have hS : 0 < S :=
    Finset.sum_pos (fun j _ => Real.rpow_pos_of_pos (hd j) _)
      Finset.univ_nonempty
  set a : Fin K → ℝ := fun k => d k ^ (-p) / S with hadef
  have ha : ∀ k, 0 < a k := fun k =>
    div_pos (Real.rpow_pos_of_pos (hd k) _) hS
  have hsa : ∑ k, a k = 1 := by
    rw [hadef, ← Finset.sum_div, ← hSdef]
    exact div_self hS.ne'
  have hm1 : 1 ≤ m := by omega
  have hcast : ((m - 1 : ℕ) : ℝ) = (m : ℝ) - 1 := by
    rw [Nat.cast_sub hm1, Nat.cast_one]
  have hlam : ∀ k, a k ^ (m - 1) * d k ^ 2 = (S ^ (m - 1))⁻¹ := by
    intro k
    have h1 : a k ^ (m - 1) = d k ^ (-p * ((m : ℝ) - 1)) / S ^ (m - 1) := by
      rw [hadef, div_pow]
      congr 1
      rw [← Real.rpow_natCast (d k ^ (-p)) (m - 1),
        ← Real.rpow_mul (hd k).le, hcast]
    have h2 : -p * ((m : ℝ) - 1) = -2 := by
      have h3 : p * ((m : ℝ) - 1) = 2 := by
        rw [hpdef]
        exact fcmExponent_mul hm
      linarith
    have h4 : d k ^ (-2 : ℝ) = (d k ^ 2)⁻¹ := by
      rw [show (-2 : ℝ) = -((2 : ℕ) : ℝ) by norm_num,
        Real.rpow_neg (hd k).le, Real.rpow_natCast]
    rw [h1, h2, h4]
    have hdk : d k ^ 2 ≠ 0 := pow_ne_zero 2 (hd k).ne'
    field_simp
  have tangent : ∀ k ∈ (Finset.univ : Finset (Fin K)),
      a k ^ m * d k ^ 2 + (m : ℝ) * (S ^ (m - 1))⁻¹ * (c k - a k)
        ≤ c k ^ m * d k ^ 2 := by
    intro k _
    have ht := pow_tangent_line hm1 (ha k) (hc0 k)
    have hmul := mul_le_mul_of_nonneg_right ht (sq_nonneg (d k))
    have hexp : (a k ^ m + (m : ℝ) * a k ^ (m - 1) * (c k - a k)) * d k ^ 2
        = a k ^ m * d k ^ 2
          + (m : ℝ) * (a k ^ (m - 1) * d k ^ 2) * (c k - a k) := by ring
    rw [hexp, hlam k] at hmul
    linarith
  have hsum : ∑ k, (a k ^ m * d k ^ 2
        + (m : ℝ) * (S ^ (m - 1))⁻¹ * (c k - a k))
      = ∑ k, a k ^ m * d k ^ 2 := by
    rw [Finset.sum_add_distrib, ← Finset.mul_sum, Finset.sum_sub_distrib,
      hc1, hsa]
    ring
  calc ∑ k, a k ^ m * d k ^ 2
      = ∑ k, (a k ^ m * d k ^ 2
          + (m : ℝ) * (S ^ (m - 1))⁻¹ * (c k - a k)) := hsum.symm
    _ ≤ ∑ k, c k ^ m * d k ^ 2 := Finset.sum_le_sum tangent

/-- The U-update phase of `_compute_centroids` does not increase the loss. -/
lemma loss_updateU_le {K n D : ℕ} (hK : 0 < K) (X : Fin n → Fin D → ℝ)
    (u : Fin K → Fin n → ℝ) (v : Fin K → Fin D → ℝ) (m : ℕ) (hm : 2 ≤ m)
    (hu0 : ∀ k i, 0 ≤ u k i) (hu1 : ∀ i, ∑ k, u k i = 1)
    (hd : ∀ i k, fcmDist (X i) (v k) ≠ 0) :
    loss X (updateU X v m) v m ≤ loss X u v m := by
  unfold loss
  refine Finset.sum_le_sum fun i _ => ?_
  have hdp : ∀ k, 0 < fcmDist (X i) (v k) := fun k =>
    lt_of_le_of_ne (fcmDist_nonneg _ _) (Ne.symm (hd i k))
  have hopt := membership_update_optimal hK hm (fun k => fcmDist (X i) (v k))
    (fun k => u k i) hdp (fun k => hu0 k i) (hu1 i)
  calc ∑ k, updateU X v m k i ^ m * euclNorm (fun e => X i e - v k e) ^ 2
      = ∑ k, (fcmDist (X i) (v k) ^ (-fcmExponent m)
            / ∑ j, fcmDist (X i) (v j) ^ (-fcmExponent m)) ^ m
          * fcmDist (X i) (v k) ^ 2 :=
        Finset.sum_congr rfl fun k _ => by rw [updateU_eq X v m hK hd k i]; rfl
    _ ≤ ∑ k, u k i ^ m * fcmDist (X i) (v k) ^ 2 := hopt
    _ = ∑ k, u k i ^ m * euclNorm (fun e => X i e - v k e) ^ 2 :=
        Finset.sum_congr rfl fun k _ => rfl

/-! Theorems settling the claims. -/

/-- C4: for a state with fuzziness exponent `m > 1`, membership columns in the
probability simplex, nondegenerate cluster weight sums, and no point
coinciding with a freshly updated centroid, one `_compute_centroids`
iteration does not increase the loss: it is non-increasing across the
V-update and across the subsequent U-update. -/
theorem C4_iteration_loss_nonincreasing {K n D : ℕ} (X : Fin n → Fin D → ℝ)
    (u : Fin K → Fin n → ℝ) (v : Fin K → Fin D → ℝ) (m : ℕ) (hK : 0 < K)
    (hm : 2 ≤ m) (hu0 : ∀ k i, 0 ≤ u k i) (hu1 : ∀ i, ∑ k, u k i = 1)
    (hW : ∀ k, rowSum (uPowM u m) k ≠ 0)
    (hd : ∀ i k, fcmDist (X i) (updateV u X m k) ≠ 0) :
    loss X u (updateV u X m) m ≤ loss X u v m ∧
      loss X (updateU X (updateV u X m) m) (updateV u X m) m
        ≤ loss X u (updateV u X m) m :=
  ⟨loss_updateV_le u X v m hu0 hW,
    loss_updateU_le hK X u (updateV u X m) m hm hu0 hu1 hd⟩

/-- C4 witness: a concrete two-point, one-cluster instance with `m = 2`. -/
theorem C4_iteration_loss_nonincreasing_witness :
    loss xC4 uC4 (updateV uC4 xC4 2) 2 ≤ loss xC4 uC4 vC4 2 ∧
      loss xC4 (updateU xC4 (updateV uC4 xC4 2) 2) (updateV uC4 xC4 2) 2
        ≤ loss xC4 uC4 (updateV uC4 xC4 2) 2 := by
  have hv : ∀ (k : Fin 1) (e : Fin 1), updateV uC4 xC4 2 k e = 1 := by
    intro k e
    fin_cases k
    fin_cases e
    norm_num [updateV, matmul, rowSum, uPowM, uC4, xC4, Fin.sum_univ_two]
  refine C4_iteration_loss_nonincreasing xC4 uC4 vC4 2 (by norm_num)
    (by norm_num) ?_ ?_ ?_ ?_
  · intro k i
    fin_cases k
    fin_cases i <;> norm_num [uC4]
  · intro i
    fin_cases i <;> norm_num [uC4, Fin.sum_univ_one]
  · intro k
    fin_cases k
    norm_num [rowSum, uPowM, uC4, Fin.sum_univ_two]
  · intro i k
    rw [show updateV uC4 xC4 2 k = fun _ => (1 : ℝ) from funext (hv k)]
    fin_cases i <;>
      norm_num [fcmDist, euclNorm, xC4, Fin.sum_univ_one,
        Real.sqrt_ne_zero']

/-- C3: `_update_v` computes, for every cluster `k` and coordinate `d`,
`v_k = (sum over i of U[k,i]^m * x_i) / (sum over i of U[k,i]^m)`, the
weighted mean of all points with weights `U[k,i]^m`. -/
theorem C3_centroid_update_weighted_mean {K n D : ℕ}
    (u : Fin K → Fin n → ℝ) (X : Fin n → Fin D → ℝ) (m : ℕ)
    (k : Fin K) (d : Fin D) :
    updateV u X m k d = (∑ i, u k i ^ m * X i d) / ∑ i, u k i ^ m :=
  rfl

/-- C9: `_loss` equals the sum over points `i` and clusters `k` of
`U[k,i]^m` times the squared Euclidean distance from `x_i` to centroid `v_k`,
and computing it leaves the clusterer state unchanged. -/
theorem C9_loss_formula_and_pure {K n D : ℕ} (s : FCMState K n D) :
    (lossMethod s).1
        = ∑ i, ∑ k, s.u k i ^ s.m * ∑ d, (s.X i d - s.centroids k d) ^ 2 ∧
      (lossMethod s).2 = s := by
  refine ⟨?_, rfl⟩
  show loss s.X s.u s.centroids s.m = _
  unfold loss
  exact Finset.sum_congr rfl fun i _ => Finset.sum_congr rfl fun k _ => by
    rw [euclNorm_sq, Finset.mul_sum]

/-- C10: `predict` ignores its argument matrix entirely, returns exactly the
stored membership matrix and centroids, and leaves the instance state
unchanged. -/
theorem C10_predict_ignores_argument {K n D nA DA : ℕ} (s : FCMState K n D)
    (XA XB : Fin nA → Fin DA → ℝ) :
    predictMethod s XA = predictMethod s XB ∧
      (predictMethod s XA).1 = (s.u, s.centroids) ∧
      (predictMethod s XA).2 = s :=
  ⟨rfl, rfl, rfl⟩

/-- C5: `_check_convergence` holds exactly when the iteration counter has
reached the budget, or a previous snapshot exists and the induced L1 norm of
the centroid difference is strictly below epsilon; with no previous snapshot
and budget not reached it is false. -/
theorem C5_convergence_characterization {K D : ℕ} (it maxIt : ℕ)
    (cur : Fin K → Fin D → ℝ) (prev : Option (Fin K → Fin D → ℝ)) (eps : ℝ) :
    checkConvergence it maxIt cur prev eps ↔
      maxIt ≤ it ∨
        ∃ p, prev = some p ∧ matNorm1 (fun k d => cur k d - p k d) < eps := by
  unfold checkConvergence
  by_cases h : maxIt ≤ it
  · simp [h]
  · cases prev with
    | none => simp [h]
    | some p => simp [h]

/-- C1: both `_init_u` and `_update_u` end by dividing the membership matrix
by its per-column sums, so every column of the stored membership matrix sums
to 1: for `_init_u` whenever the random draw has nonzero column sums, and for
`_update_u` whenever no point sits exactly on a centroid. -/
theorem C1_membership_columns_sum_to_one :
    (∀ (K n : ℕ) (r : Fin K → Fin n → ℝ),
        (∀ i, ∑ k, r k i ≠ 0) → ∀ i, ∑ k, initU r k i = 1) ∧
      ∀ (K n D : ℕ) (X : Fin n → Fin D → ℝ) (v : Fin K → Fin D → ℝ) (m : ℕ),
        0 < K → (∀ i j, fcmDist (X i) (v j) ≠ 0) →
        ∀ i, ∑ k, updateU X v m k i = 1 := by
  constructor
  · intro K n r h i
    exact colNormalize_colsum r i (h i)
  · intro K n D X v m hK hd i
    exact updateU_colsum X v m hK hd i

/-- C1 witness: concrete evaluations of both normalisations. -/
theorem C1_membership_columns_sum_to_one_witness :
    ∑ k, initU rInitW k 0 = 1 ∧ ∑ k, updateU xUW vUW 2 k 0 = 1 := by
  constructor
  · exact C1_membership_columns_sum_to_one.1 2 1 rInitW
      (fun i => by norm_num [rInitW, Fin.sum_univ_two]) 0
  · refine C1_membership_columns_sum_to_one.2 2 1 1 xUW vUW 2 (by norm_num) ?_ 0
    intro i j
    fin_cases i
    fin_cases j <;>
      norm_num [fcmDist, euclNorm, xUW, vUW, Fin.sum_univ_one,
        Real.sqrt_ne_zero']

/-- C2: at a point that coincides exactly with centroid 0 the code of
`_update_u` does divide by the zero distance (`num / den` with `den = 0`),
and the resulting membership of the coinciding cluster is 0, not 1 (with the
Lean convention `x / 0 = 0`; in NumPy the same expression is `0/0 = NaN`). -/
theorem C2_degenerate_point_zero_division :
    fcmDist (xDeg 0) (vDeg 0) = 0 ∧ updateU xDeg vDeg 2 0 0 = 0 := by
  have hd0 : fcmDist (xDeg 0) (vDeg 0) = 0 := by
    simp [fcmDist, euclNorm, xDeg, vDeg, Fin.sum_univ_one]
  have hd1 : fcmDist (xDeg 0) (vDeg 1) = 1 := by
    simp [fcmDist, euclNorm, xDeg, vDeg, Fin.sum_univ_one]
  have hp : fcmExponent 2 = 2 := by norm_num [fcmExponent]
  have hraw0 : updateURaw xDeg vDeg 2 0 0 = 0 := by
    unfold updateURaw
    rw [Fin.sum_univ_two, hd0, hd1, hp]
    rw [show ((0 : ℝ) / 0) = 0 by norm_num, show ((0 : ℝ) / 1) = 0 by norm_num,
      Real.zero_rpow (by norm_num : (2 : ℝ) ≠ 0)]
    norm_num
  have hraw1 : updateURaw xDeg vDeg 2 1 0 = 1 := by
    unfold updateURaw
    rw [Fin.sum_univ_two, hd0, hd1, hp]
    rw [show ((1 : ℝ) / 0) = 0 by norm_num, show ((1 : ℝ) / 1) = 1 by norm_num,
      Real.zero_rpow (by norm_num : (2 : ℝ) ≠ 0), Real.one_rpow]
    norm_num
  refine ⟨hd0, ?_⟩
  unfold updateU colNormalize
  rw [Fin.sum_univ_two, hraw0, hraw1]
  norm_num

/-- C6: `_update_v` has no access to the previous centroids and no guard: on a
cluster whose weight sum is exactly zero it still divides, producing the zero
centroid under the Lean convention (`0 / 0 = NaN` in NumPy) instead of
failing or retaining the previous centroid. -/
theorem C6_degenerate_weight_sum_divides :
    rowSum (uPowM uZero 2) 0 = 0 ∧ updateV uZero xC6 2 0 0 = 0 ∧
      updateV uZero xC6 2 0 0 ≠ vPrev 0 0 := by
  refine ⟨?_, ?_, ?_⟩
  · simp [rowSum, uPowM, uZero, Fin.sum_univ_one]
  · simp [updateV, matmul, rowSum, uPowM, uZero, xC6, Fin.sum_univ_one]
  · simp [updateV, matmul, rowSum, uPowM, uZero, xC6, vPrev, Fin.sum_univ_one]

/-- C8 helper: the induced L1 norm of a 1-by-1 matrix. -/
lemma matNorm1_one_one (M : Fin 1 → Fin 1 → ℝ) :
    matNorm1 M = max |M 0 0| 0 := by
  unfold matNorm1
  rw [Finset.univ_unique, Finset.fold_singleton, Finset.sum_singleton]
  simp [Fin.default_eq_zero]

/-- C8: the convergence check merges budget exhaustion and the tolerance
criterion into one boolean, and `predict` returns only `(u, centroids)`: a
budget-exhausted non-converged state and a tolerance-converged state both
report convergence and are indistinguishable to the caller — no
non-convergence flag exists. -/
theorem C8_no_nonconvergence_flag :
    checkConvergence sBudget.it sBudget.max_it sBudget.centroids (some prevFar)
        sBudget.epsilon ∧
      ¬ matNorm1 (fun k d => sBudget.centroids k d - prevFar k d)
          < sBudget.epsilon ∧
      checkConvergence sTol.it sTol.max_it sTol.centroids
        (some sTol.centroids) sTol.epsilon ∧
      matNorm1 (fun k d => sTol.centroids k d - sTol.centroids k d)
          < sTol.epsilon ∧
      (predictMethod sBudget xC6).1 = (predictMethod sTol xC6).1 := by
  refine ⟨?_, ?_, ?_, ?_, rfl⟩
  · show checkConvergence 5 5 _ _ _
    unfold checkConvergence
    norm_num
  · rw [matNorm1_one_one]
    show ¬ max |(0 : ℝ) - 100| 0 < 1
    rw [show (0 : ℝ) - 100 = -100 by norm_num, abs_neg, abs_of_nonneg]
    · norm_num
    · norm_num
  · show checkConvergence 1 5 _ _ _
    unfold checkConvergence
    rw [if_neg (by norm_num : ¬ 5 ≤ 1)]
    show matNorm1 (fun k d => sTol.centroids k d - sTol.centroids k d)
        < sTol.epsilon
    rw [matNorm1_one_one]
    show max |(0 : ℝ) - 0| 0 < 1
    norm_num
  · rw [matNorm1_one_one]
    show max |(0 : ℝ) - 0| 0 < 1
    norm_num

/-- C7: the constructor accepts fuzziness exponent `m = 1` without any
validation (the stored configuration has `m = 1`), even though the divisor
`m - 1` of the membership-update exponent `2 / (m - 1)` is then zero. -/
theorem C7_no_fuzziness_validation :
    (fcmInit 1 (1 / 100)).m = 1 ∧
      ((fcmInit 1 (1 / 100)).m : ℝ) - 1 = 0 := by
  constructor
  · rfl
  · norm_num [fcmInit]

end FCM
